import Mathlib

/-!
Verification of the retrieval-augmented QA pipeline of this repository
(notebooks: `query_text_files.ipynb`, `query_with_functions.ipynb`, and the
PDF-ingestion notebook).  The repository's own code is thin glue over external
libraries; where a claim is decided by a component that is not present in the
repository's source (the text splitter, the retrieval chain, the memory
object, the serializer), that component is modelled from the specification's
contract, as noted on each definition.
-/

namespace RagPipeline

/-! ## Chunker

The notebooks configure `RecursiveCharacterTextSplitter(chunk_size=500,
chunk_overlap=100)`; the splitter itself is an external library component. -/

/-- The `chunk_size` configured in both ingestion notebooks. -/
def chunk_size : Nat := 500

/-- The `chunk_overlap` configured in both ingestion notebooks. -/
def chunk_overlap : Nat := 100

/-- Modelled from the spec: the Chunker contract (§4.1), whose implementation
(`RecursiveCharacterTextSplitter`) is an external library absent from the
repository's source.  Given a maximum chunk length `L` and an overlap `O`
with `0 ≤ O < L`, the text is cut into windows of length at most `L` whose
consecutive members share `O` characters, the hard-cut discipline the spec's
fallback describes; empty text yields the empty sequence.  (The contract
presumes `O < L`; outside that range the model returns one truncated chunk,
a case no claim exercises.) -/
def splitChars (L O : Nat) (s : List Char) : List (List Char) :=
  if s.isEmpty then []
  else if s.length ≤ L then [s]
  else if L ≤ O then [s.take L]
  else s.take L :: splitChars L O (s.drop (L - O))
termination_by s.length
decreasing_by
  simp only [List.length_drop]
  omega

/-- Modelled from the spec: "concatenating chunks while trimming overlaps
reconstructs the original text" (§4.1) — the first chunk is kept whole and
each later chunk contributes everything after its leading overlap of `O`
characters. -/
def stitch (O : Nat) : List (List Char) → List Char
  | [] => []
  | c :: cs => c ++ (cs.map (List.drop O)).flatten

/-- Trimming the leading overlap from every chunk and concatenating yields the
source text minus its first `O` characters. -/
theorem flatten_drop_splitChars (L O : Nat) (hO : O < L) (s : List Char) :
    ((splitChars L O s).map (List.drop O)).flatten = List.drop O s := by
  induction s using splitChars.induct L O with
  | case1 x hx =>
      rw [splitChars]
      simp [hx, List.isEmpty_iff.mp hx]
  | case2 x hx hlen =>
      rw [splitChars]
      simp [hx, hlen]
  | case3 x hx hlen hLO => omega
  | case4 x hx hlen hLO ih =>
      rw [splitChars]
      simp only [hx, hlen, hLO, if_false, Bool.false_eq_true, List.map_cons,
        List.flatten_cons, ite_false]
      rw [ih, List.drop_take, List.drop_drop]
      have hL : L - O + O = O + (L - O) := by omega
      rw [hL, ← List.drop_drop, List.take_append_drop]

/-- Stitching the chunks back together reconstructs the source text. -/
theorem stitch_splitChars (L O : Nat) (hO : O < L) (s : List Char) :
    stitch O (splitChars L O s) = s := by
  rw [splitChars]
  by_cases hx : s.isEmpty
  · simp only [hx, if_pos]
    rw [List.isEmpty_iff.mp hx]
    rfl
  · by_cases hlen : s.length ≤ L
    · simp [hx, hlen, stitch]
    · have hLO : ¬ L ≤ O := by omega
      simp only [hx, hlen, hLO, if_false, Bool.false_eq_true, ite_false]
      show s.take L ++ ((splitChars L O (s.drop (L - O))).map (List.drop O)).flatten = s
      rw [flatten_drop_splitChars L O hO, List.drop_drop]
      have hL : L - O + O = L := by omega
      rw [hL, List.take_append_drop]

/-- Every chunk produced by the splitter is at most `L` characters long. -/
theorem length_le_of_mem_splitChars (L O : Nat) (s c : List Char)
    (h : c ∈ splitChars L O s) : c.length ≤ L := by
  induction s using splitChars.induct L O with
  | case1 x hx => rw [splitChars] at h; simp [hx] at h
  | case2 x hx hlen =>
      rw [splitChars] at h
      simp [hx, hlen] at h
      subst h; exact hlen
  | case3 x hx hlen hLO =>
      rw [splitChars] at h
      simp [hx, hlen, hLO] at h
      subst h; simp
  | case4 x hx hlen hLO ih =>
      rw [splitChars] at h
      simp [hx, hlen, hLO] at h
      rcases h with h1 | h1
      · subst h1; simp
      · exact ih h1

/-- The first chunk of a split keeps the first `O` characters of its text and
is at least `O` characters long. -/
theorem splitChars_head (L O : Nat) (hO : O ≤ L) (t c : List Char) (cs : List (List Char))
    (hsp : splitChars L O t = c :: cs) (ht : O < t.length) :
    c.take O = t.take O ∧ O ≤ c.length := by
  rw [splitChars] at hsp
  split at hsp
  · exact absurd hsp (by simp)
  · split at hsp
    · rw [List.cons.injEq] at hsp
      rcases hsp with ⟨rfl, -⟩
      exact ⟨rfl, Nat.le_of_lt ht⟩
    · next hlen hLO =>
        split at hsp <;>
        · rw [List.cons.injEq] at hsp
          rcases hsp with ⟨rfl, -⟩
          refine ⟨?_, ?_⟩
          · rw [List.take_take]
            congr 1
            omega
          · rw [List.length_take]
            omega

/-- Consecutive chunks share exactly `O` characters: the trailing `O`
characters of each chunk equal the leading `O` characters of the next, and
both chunks are long enough for that segment to have length exactly `O`. -/
theorem chain_overlap_splitChars (L O : Nat) (hO : O < L) (s : List Char) :
    List.Chain' (fun a b => O ≤ a.length ∧ O ≤ b.length ∧
      a.drop (a.length - O) = b.take O) (splitChars L O s) := by
  induction s using splitChars.induct L O with
  | case1 x hx => rw [splitChars]; simp [hx]
  | case2 x hx hlen => rw [splitChars]; simp [hx, hlen]
  | case3 x hx hlen hLO => omega
  | case4 x hx hlen hLO ih =>
      rw [splitChars]
      simp only [hx, hlen, hLO, if_false, Bool.false_eq_true, ite_false]
      rw [List.chain'_cons']
      refine ⟨?_, ih⟩
      intro b hb
      cases hsp : splitChars L O (x.drop (L - O)) with
      | nil => rw [hsp] at hb; simp at hb
      | cons c cs =>
          rw [hsp] at hb
          simp only [List.head?_cons, Option.mem_some_iff] at hb
          subst hb
          have ht : O < (x.drop (L - O)).length := by
            rw [List.length_drop]; omega
          obtain ⟨htake, hclen⟩ := splitChars_head L O (Nat.le_of_lt hO) _ c cs hsp ht
          have hlenTake : (x.take L).length = L := by
            rw [List.length_take]; omega
          refine ⟨by omega, hclen, ?_⟩
          rw [hlenTake, List.drop_take, htake]
          congr 1
          omega

/-! ## Vector index and retrieval

The vector store is the external FAISS library; the notebooks only build it
(`FAISS.from_documents`), persist it, and hand it to the chain as
`vectorstore.as_retriever(search_type="similarity")`. -/

/-- Stable insertion of an element into a list, in front of the first element
it compares `le` to. -/
def insertLe {α : Type} (le : α → α → Bool) (a : α) : List α → List α
  | [] => [a]
  | b :: bs => if le a b then a :: b :: bs else b :: insertLe le a bs

/-- Stable insertion sort by the Boolean comparison `le`. -/
def sortLe {α : Type} (le : α → α → Bool) : List α → List α
  | [] => []
  | a :: as => insertLe le a (sortLe le as)

/-- Modelled from the spec: the configured distance metric of the external
vector index (§4.2); squared Euclidean distance on integer-valued embedding
vectors (the spec treats embeddings as opaque numeric vectors, §3). -/
def sqDist (u v : List Int) : Int := ((u.zip v).map (fun p => (p.1 - p.2) ^ 2)).sum

/-- Modelled from the spec: the top-K nearest-chunk lookup of the external
vector store (FAISS, absent from the repository's source): score every
indexed chunk by distance to the query embedding, sort the scores with a
stable sort, and return the text of the first `K` chunks (§4.2). -/
def retrieveTopK (K : Nat) (index : List (List Int × String)) (qe : List Int) : List String :=
  ((sortLe (fun a b => decide (a.1 ≤ b.1)) (index.map (fun p => (sqDist qe p.1, p.2)))).map
    Prod.snd).take K

/-- Modelled from the spec: a query session (§3, §5) — the vector index built
at ingestion (embedding vector and text per chunk), the per-session `K`, and
the append-only conversation history of (question, answer) pairs. -/
structure Session where
  index : List (List Int × String)
  k : Nat
  history : List (String × String)
deriving DecidableEq

/-- Modelled from the spec: the prompt assembled by the retrieval chain,
"format a prompt template combining context + question + history" (§4.2);
the template text follows the notebooks' `prompt_template`. -/
def formatPrompt (context question : String) (history : List (String × String)) : String :=
  "The following is a conversation with an AI research assistant. " ++
  "The assistant tone is technical and scientific. " ++
  String.intercalate " " (history.map (fun p => "Human: " ++ p.1 ++ " AI: " ++ p.2)) ++
  " Pieces of Context: " ++ context ++ " User Question: " ++ question ++ " AI Answer:"

/-- The retrieval a session performs for one question: a pure function of the
session's index, its `K`, and the question's embedding. -/
def retrievalOf (embed : String → List Int) (st : Session) (q : String) : List String :=
  retrieveTopK st.k st.index (embed q)

/-- Modelled from the spec: one cycle of the Retrieval QA Loop (§4.2), whose
implementation (`ConversationalRetrievalChain` plus `ConversationBufferMemory`)
is an external library absent from the repository's source.  Retrieve the
top-K chunks, format the prompt, submit it to the external completion service
(a parameter returning `Except`); on success append the (question, answer)
pair to the history, on failure propagate the error and produce no state. -/
def qaStep (embed : String → List Int) (complete : String → Except String String)
    (st : Session) (q : String) : Except String Session :=
  match complete (formatPrompt (String.intercalate " " (retrievalOf embed st q)) q st.history) with
  | .error e => .error e
  | .ok a => .ok { st with history := st.history ++ [(q, a)] }

/-- Modelled from the spec: a session answering a list of questions in
submission order, stopping at the first completion failure. -/
def qaRun (embed : String → List Int) (complete : String → Except String String)
    (st : Session) : List String → Except String Session
  | [] => .ok st
  | q :: qs =>
    match qaStep embed complete st q with
    | .error e => .error e
    | .ok st2 => qaRun embed complete st2 qs

/-- Modelled from the spec: ingestion (§2) — chunk every document, embed every
chunk, and build the session's index before any query runs; the session starts
with an empty history. -/
def ingest (L O K : Nat) (embed : String → List Int) (docs : List String) : Session :=
  let chunks := (docs.map (fun d => (splitChars L O d.data).map String.mk)).flatten
  { index := chunks.map (fun c => (embed c, c)), k := K, history := [] }

/-- A successful QA step appends exactly one (question, answer) pair and
changes nothing else in the session. -/
theorem qaStep_ok (embed : String → List Int) (complete : String → Except String String)
    (st : Session) (q : String) (st2 : Session)
    (h : qaStep embed complete st q = Except.ok st2) :
    st2.index = st.index ∧ st2.k = st.k ∧
      ∃ a, st2.history = st.history ++ [(q, a)] := by
  unfold qaStep at h
  split at h
  · exact absurd h (by simp)
  · next a heq =>
      rw [Except.ok.injEq] at h
      subst h
      exact ⟨rfl, rfl, a, rfl⟩

/-- A successful run appends one pair per question, in submission order, and
leaves the index and `K` untouched. -/
theorem qaRun_ok (embed : String → List Int) (complete : String → Except String String)
    (st : Session) (qs : List String) (st2 : Session)
    (h : qaRun embed complete st qs = Except.ok st2) :
    st2.index = st.index ∧ st2.k = st.k ∧
      ∃ answers : List String, answers.length = qs.length ∧
        st2.history = st.history ++ qs.zip answers := by
  induction qs generalizing st with
  | nil =>
      unfold qaRun at h
      rw [Except.ok.injEq] at h
      subst h
      exact ⟨rfl, rfl, [], rfl, by simp⟩
  | cons q qs ih =>
      unfold qaRun at h
      split at h
      · exact absurd h (by simp)
      · next st1 heq =>
          obtain ⟨hidx1, hk1, a, hh1⟩ := qaStep_ok embed complete st q st1 heq
          obtain ⟨hidx2, hk2, answers, hlen, hh2⟩ := ih st1 h
          refine ⟨hidx2.trans hidx1, hk2.trans hk1, a :: answers, by simp [hlen], ?_⟩
          rw [hh2, hh1, List.zip_cons_cons, List.append_assoc]
          rfl

/-! ## Persistence of the vector index

The notebooks persist the index with `pickle.dump(vectorstore, file)` and
reload it with `pickle.load`; the serialization format belongs to the
external library (§6).  The model below is a faithful serializer for the
index data (chunks and embeddings) with its loader. -/

/-- Modelled from the spec: serialization of one integer of an embedding
vector (the external format is opaque; any faithful code works, §6). -/
def encInt (i : Int) : Nat := if 0 ≤ i then 2 * i.toNat else 2 * (-i).toNat - 1

/-- Deserialization of one integer. -/
def decInt (n : Nat) : Int :=
  if n % 2 = 0 then ((n / 2 : Nat) : Int) else -(((n / 2 : Nat) : Int) + 1)

theorem decInt_encInt (i : Int) : decInt (encInt i) = i := by
  rcases i with m | m
  · simp [encInt, decInt, Int.ofNat_nonneg]
  · simp only [encInt, decInt]
    rw [if_neg (Int.not_le.mpr (Int.negSucc_lt_zero m))]
    have h2 : (-Int.negSucc m).toNat = m + 1 := by
      simp [Int.neg_negSucc]
    rw [h2]
    have h3 : 2 * (m + 1) - 1 = 2 * m + 1 := by omega
    rw [h3]
    rw [if_neg (by omega)]
    have h5 : (2 * m + 1) / 2 = m := by omega
    rw [h5]
    omega

/-- Reads one length-prefixed block from a serialized stream, returning the
block and the remaining stream. -/
def decBlock : List Nat → Option (List Nat × List Nat)
  | [] => none
  | n :: rest => if n ≤ rest.length then some (rest.take n, rest.drop n) else none

theorem decBlock_append (xs r : List Nat) :
    decBlock (xs.length :: (xs ++ r)) = some (xs, r) := by
  simp only [decBlock]
  rw [if_pos (by simp)]
  rw [List.take_left, List.drop_left]

/-- Serialization of one index entry: the embedding vector then the chunk
text, each length-prefixed. -/
def encEntry (e : List Int × String) : List Nat :=
  (e.1.length :: e.1.map encInt) ++ (e.2.data.length :: e.2.data.map Char.toNat)

/-- Deserialization of one index entry from a stream. -/
def decEntry (l : List Nat) : Option ((List Int × String) × List Nat) :=
  (decBlock l).bind (fun p =>
    (decBlock p.2).bind (fun q =>
      some ((p.1.map decInt, String.mk (q.1.map Char.ofNat)), q.2)))

theorem decEntry_encEntry (e : List Int × String) (r : List Nat) :
    decEntry (encEntry e ++ r) = some (e, r) := by
  unfold decEntry encEntry
  have h1 : ((e.1.length :: e.1.map encInt) ++ (e.2.data.length :: e.2.data.map Char.toNat)) ++ r
      = (e.1.map encInt).length ::
          ((e.1.map encInt) ++
            ((e.2.data.map Char.toNat).length :: ((e.2.data.map Char.toNat) ++ r))) := by
    simp
  rw [h1, decBlock_append]
  simp only [Option.some_bind]
  rw [decBlock_append]
  simp only [Option.some_bind]
  have h2 : (e.1.map encInt).map decInt = e.1 := by
    rw [List.map_map]
    have h : decInt ∘ encInt = id := funext decInt_encInt
    rw [h, List.map_id]
  have h3 : (e.2.data.map Char.toNat).map Char.ofNat = e.2.data := by
    rw [List.map_map]
    have h : Char.ofNat ∘ Char.toNat = id := funext Char.ofNat_toNat
    rw [h, List.map_id]
  rw [h2, h3]

/-- Deserialization of a counted sequence of index entries. -/
def decEntries : Nat → List Nat → Option (List (List Int × String) × List Nat)
  | 0, l => some ([], l)
  | n+1, l =>
    (decEntry l).bind (fun p =>
      (decEntries n p.2).bind (fun q => some (p.1 :: q.1, q.2)))

theorem decEntries_enc (idx : List (List Int × String)) (r : List Nat) :
    decEntries idx.length ((idx.map encEntry).flatten ++ r) = some (idx, r) := by
  induction idx generalizing r with
  | nil => simp [decEntries]
  | cons e es ih =>
      simp only [List.map_cons, List.flatten_cons, List.length_cons, List.append_assoc]
      simp only [decEntries]
      rw [decEntry_encEntry]
      simp only [Option.some_bind]
      rw [ih]
      simp only [Option.some_bind]

/-- Modelled from the spec: `pickle.dump` of the vector index — the whole
index, entry count first, as one stream (§6). -/
def encIndex (idx : List (List Int × String)) : List Nat :=
  idx.length :: (idx.map encEntry).flatten

/-- Modelled from the spec: `pickle.load` of a persisted vector index; fails
on a corrupt stream (§7). -/
def decIndex : List Nat → Option (List (List Int × String))
  | [] => none
  | n :: rest =>
    match decEntries n rest with
    | some (idx, []) => some idx
    | _ => none

theorem decIndex_encIndex (idx : List (List Int × String)) :
    decIndex (encIndex idx) = some idx := by
  unfold encIndex
  simp only [decIndex]
  have h := decEntries_enc idx []
  rw [List.append_nil] at h
  rw [h]

/-! ## Configuration from the environment

Both ingestion notebooks run `API_KEY = os.getenv('OPENAI_API_KEY')` and pass
`API_KEY` straight into `OpenAIEmbeddings(openai_api_key=API_KEY)` and the
chat-model constructor. -/

/-- Embedding of `os.getenv`: look a name up in the process environment,
returning `none` when the variable is unset. -/
def getenv (env : List (String × String)) (key : String) : Option String :=
  (env.find? (fun p => p.1 == key)).map Prod.snd

/-- The configuration the notebooks build at setup: the optional API key as
handed to the embeddings client and to the chat-model client. -/
structure PipelineConfig where
  apiKey : Option String
  embeddingsKey : Option String
  llmKey : Option String
deriving DecidableEq

/-- Embedding of the setup cells: `API_KEY = os.getenv('OPENAI_API_KEY')`
followed by `OpenAIEmbeddings(openai_api_key=API_KEY)` and
`ChatOpenAI(..., openai_api_key=API_KEY)` — the optional key is passed
through unchecked and construction is total. -/
def setupPipeline (env : List (String × String)) : PipelineConfig :=
  let key := getenv env "OPENAI_API_KEY"
  { apiKey := key, embeddingsKey := key, llmKey := key }

/-- Modelled from the spec: a call to the external embedding or completion
service (§6, §7) — service failures (here, a missing credential) surface
per-request, at call time. -/
def callService (key : Option String) (payload : String) : Except String String :=
  match key with
  | none => Except.error "authentication failed: missing api key"
  | some _ => Except.ok payload

/-! ## The demo error path of `query_with_functions.ipynb` -/

/-- Embedding of the demo cell
`try: answer = agent.run(q) except Exception as e: open('error_out.txt','w').write(str(e))`:
the external run is a parameter returning `Except`; the result is the value
bound to `answer` (unchanged from before the cell when the run raises) and
the list of files written.  The caller always receives a normal return —
the caught exception is never re-raised. -/
def guardedAgentRun (run : String → Except String String) (q : String)
    (answer : Option String) (files : List (String × String)) :
    Option String × List (String × String) :=
  match run q with
  | .ok a => (some a, files)
  | .error e => (answer, files ++ [("error_out.txt", e)])

/-! ## Claims -/

/-- C1: for every text, splitting with maximum chunk length `L` and overlap
`O` (`O < L`) and then stitching the chunks — keeping the first chunk whole
and trimming the shared leading overlap from every later chunk — yields the
original text exactly, character for character. -/
theorem claim_C1_chunk_stitch_roundtrip (L O : Nat) (hO : O < L) (s : List Char) :
    stitch O (splitChars L O s) = s :=
  stitch_splitChars L O hO s

/-- Witness for C1 at `L = 4`, `O = 2` on the text `"abcdefghij"`. -/
theorem claim_C1_witness :
    2 < 4 ∧ stitch 2 (splitChars 4 2 "abcdefghij".data) = "abcdefghij".data :=
  ⟨by decide, claim_C1_chunk_stitch_roundtrip 4 2 (by decide) "abcdefghij".data⟩

/-- C2: the claim says a failed completion call surfaces the error to the
caller; the cell in `query_with_functions.ipynb` instead catches the
exception and writes its text to `error_out.txt`, returning normally.  At
the notebook's own input, when the run raises, the caller receives no
answer and no error — the error text exists only in the file log. -/
theorem claim_C2_error_swallowed_to_file :
    guardedAgentRun (fun _ => Except.error "completion service failure")
        "What is 2x+5 = -3x + 7?" none []
      = (none, [("error_out.txt", "completion service failure")]) := rfl

/-- C3: a successful QA cycle appends exactly one (question, answer) pair to
the history and touches nothing earlier; after a run of `N` successfully
answered questions from an empty history, the history has exactly `N`
entries whose questions are the submitted ones in submission order. -/
theorem claim_C3_history_append_only (embed : String → List Int)
    (complete : String → Except String String) :
    (∀ (st : Session) (q : String) (st2 : Session),
        qaStep embed complete st q = Except.ok st2 →
        ∃ a, st2.history = st.history ++ [(q, a)]) ∧
    (∀ (st : Session) (qs : List String) (st2 : Session),
        qaRun embed complete st qs = Except.ok st2 →
        ∃ answers : List String, answers.length = qs.length ∧
          st2.history = st.history ++ qs.zip answers) ∧
    (∀ (index : List (List Int × String)) (k : Nat) (qs : List String) (st2 : Session),
        qaRun embed complete ⟨index, k, []⟩ qs = Except.ok st2 →
        st2.history.length = qs.length ∧ st2.history.map Prod.fst = qs) := by
  refine ⟨?_, ?_, ?_⟩
  · intro st q st2 h
    exact (qaStep_ok embed complete st q st2 h).2.2
  · intro st qs st2 h
    exact (qaRun_ok embed complete st qs st2 h).2.2
  · intro index k qs st2 h
    obtain ⟨-, -, answers, hlen, hh⟩ := qaRun_ok embed complete ⟨index, k, []⟩ qs st2 h
    simp only [List.nil_append] at hh
    rw [hh]
    constructor
    · rw [List.length_zip, hlen, Nat.min_self]
    · exact List.map_fst_zip qs answers (Nat.le_of_eq hlen.symm)

/-- Witness for C3: a run of two successfully answered questions from an
empty history ends with exactly those two pairs in submission order. -/
theorem claim_C3_witness :
    qaRun (fun _ => []) (fun _ => Except.ok "ans") ⟨[], 0, []⟩ ["q1", "q2"]
        = Except.ok ⟨[], 0, [("q1", "ans"), ("q2", "ans")]⟩ ∧
    ([("q1", "ans"), ("q2", "ans")] : List (String × String)).length = 2 ∧
    ([("q1", "ans"), ("q2", "ans")] : List (String × String)).map Prod.fst
        = ["q1", "q2"] := by
  have h := (claim_C3_history_append_only (fun _ => []) (fun _ => Except.ok "ans")).2.2
    [] 0 ["q1", "q2"] ⟨[], 0, [("q1", "ans"), ("q2", "ans")]⟩ rfl
  exact ⟨rfl, h.1, h.2⟩

/-- C4: every chunk the splitter produces has length at most the configured
maximum chunk length `L`. -/
theorem claim_C4_chunk_length_le (L O : Nat) (s c : List Char)
    (h : c ∈ splitChars L O s) : c.length ≤ L :=
  length_le_of_mem_splitChars L O s c h

/-- Witness for C4 at the notebooks' configured `chunk_size = 500`,
`chunk_overlap = 100`. -/
theorem claim_C4_witness :
    "hello".data ∈ splitChars chunk_size chunk_overlap "hello".data ∧
    "hello".data.length ≤ chunk_size := by
  have hmem : "hello".data ∈ splitChars chunk_size chunk_overlap "hello".data := by
    rw [splitChars]
    simp [chunk_size]
  exact ⟨hmem, claim_C4_chunk_length_le chunk_size chunk_overlap _ _ hmem⟩

/-- C5: for `0 ≤ O < L`, every pair of consecutive chunks shares a
trailing/leading overlap of length exactly `O` (both chunks are at least `O`
long and the trailing `O` characters of the first equal the leading `O` of
the second), and the chunks cover the source text with no gaps (stitching
them reconstructs it). -/
theorem claim_C5_overlap_and_coverage (L O : Nat) (hO : O < L) (s : List Char) :
    List.Chain' (fun a b => O ≤ a.length ∧ O ≤ b.length ∧
      a.drop (a.length - O) = b.take O) (splitChars L O s) ∧
    stitch O (splitChars L O s) = s :=
  ⟨chain_overlap_splitChars L O hO s, stitch_splitChars L O hO s⟩

/-- Witness for C5 at `L = 4`, `O = 2` on the text `"abcdefghij"`. -/
theorem claim_C5_witness :
    2 < 4 ∧
    (List.Chain' (fun a b => 2 ≤ a.length ∧ 2 ≤ b.length ∧
        a.drop (a.length - 2) = b.take 2) (splitChars 4 2 "abcdefghij".data) ∧
      stitch 2 (splitChars 4 2 "abcdefghij".data) = "abcdefghij".data) :=
  ⟨by decide, claim_C5_overlap_and_coverage 4 2 (by decide) "abcdefghij".data⟩

/-- C6: chunking `"abcdefghij"` with maximum chunk length 4 and overlap 2
yields exactly `["abcd", "cdef", "efgh", "ghij"]` — the hard cut applies
throughout, this input having no natural boundaries. -/
theorem claim_C6_example_hard_cut :
    splitChars 4 2 "abcdefghij".data
      = ["abcd".data, "cdef".data, "efgh".data, "ghij".data] := by
  simp [splitChars]

/-- C7: retrieval is deterministic — the top-K lookup is a function of the
index, the per-session `K`, and the query embedding alone, so two
invocations with the same index, the same `K`, and the same query embedding
(in particular at different moments of a session, with different
conversation histories) return the same chunks in the same order. -/
theorem claim_C7_retrieval_deterministic (embed : String → List Int)
    (st1 st2 : Session) (q1 q2 : String)
    (hidx : st1.index = st2.index) (hk : st1.k = st2.k) (hq : embed q1 = embed q2) :
    retrievalOf embed st1 q1 = retrievalOf embed st2 q2 := by
  unfold retrievalOf
  rw [hidx, hk, hq]

/-- Witness for C7: the same query against the same index and `K` retrieves
the same chunks before and after the history has grown. -/
theorem claim_C7_witness :
    (Session.mk [([0], "doc")] 1 []).index = (Session.mk [([0], "doc")] 1 [("old", "turn")]).index ∧
    (Session.mk [([0], "doc")] 1 []).k = (Session.mk [([0], "doc")] 1 [("old", "turn")]).k ∧
    (fun _ : String => ([0] : List Int)) "hi" = (fun _ : String => ([0] : List Int)) "hi" ∧
    retrievalOf (fun _ => [0]) (Session.mk [([0], "doc")] 1 []) "hi"
      = retrievalOf (fun _ => [0]) (Session.mk [([0], "doc")] 1 [("old", "turn")]) "hi" := by
  refine ⟨rfl, rfl, rfl, ?_⟩
  exact claim_C7_retrieval_deterministic (fun _ => [0])
    (Session.mk [([0], "doc")] 1 []) (Session.mk [([0], "doc")] 1 [("old", "turn")])
    "hi" "hi" rfl rfl rfl

/-- C8: queries are read-only with respect to the vector index — a
successful step and a successful run both leave the index (and the
per-session `K`) exactly as they were; only ingestion builds the index, and
the session it hands to the query phase starts with an empty history, so
ingestion is complete before any query runs. -/
theorem claim_C8_index_readonly (embed : String → List Int)
    (complete : String → Except String String) :
    (∀ (st : Session) (q : String) (st2 : Session),
        qaStep embed complete st q = Except.ok st2 →
        st2.index = st.index ∧ st2.k = st.k) ∧
    (∀ (st : Session) (qs : List String) (st2 : Session),
        qaRun embed complete st qs = Except.ok st2 →
        st2.index = st.index ∧ st2.k = st.k) ∧
    (∀ (L O K : Nat) (docs : List String),
        (ingest L O K embed docs).history = []) := by
  refine ⟨?_, ?_, ?_⟩
  · intro st q st2 h
    obtain ⟨h1, h2, -⟩ := qaStep_ok embed complete st q st2 h
    exact ⟨h1, h2⟩
  · intro st qs st2 h
    obtain ⟨h1, h2, -⟩ := qaRun_ok embed complete st qs st2 h
    exact ⟨h1, h2⟩
  · intro L O K docs
    rfl

/-- Witness for C8: a successful one-question run returns the index and `K`
it started with. -/
theorem claim_C8_witness :
    qaRun (fun _ => [0]) (fun _ => Except.ok "ans") ⟨[([0], "doc")], 1, []⟩ ["q"]
        = Except.ok ⟨[([0], "doc")], 1, [("q", "ans")]⟩ ∧
    (Session.mk [([0], "doc")] 1 [("q", "ans")]).index
        = (Session.mk [([0], "doc")] 1 []).index ∧
    (Session.mk [([0], "doc")] 1 [("q", "ans")]).k = (Session.mk [([0], "doc")] 1 []).k := by
  have h := (claim_C8_index_readonly (fun _ => [0]) (fun _ => Except.ok "ans")).2.1
    ⟨[([0], "doc")], 1, []⟩ ["q"] ⟨[([0], "doc")], 1, [("q", "ans")]⟩ rfl
  exact ⟨rfl, h.1, h.2⟩

/-- C9: persisting the vector index and reloading it is a round-trip — the
loaded index exists, contains exactly the chunks and embeddings of the
original, and every top-K query answers identically against it. -/
theorem claim_C9_persistence_roundtrip (idx : List (List Int × String)) :
    ∃ idx2, decIndex (encIndex idx) = some idx2 ∧ idx2 = idx ∧
      ∀ (K : Nat) (qe : List Int), retrieveTopK K idx2 qe = retrieveTopK K idx qe :=
  ⟨idx, decIndex_encIndex idx, rfl, fun _ _ => rfl⟩

/-- C10: when `OPENAI_API_KEY` is unset, `os.getenv` yields `none`, the
pipeline configuration is still constructed — the absent key passed
unchecked to both the embeddings client and the chat-model client — and the
failure surfaces only when an external service call is attempted. -/
theorem claim_C10_missing_key_defers_failure (env : List (String × String))
    (h : getenv env "OPENAI_API_KEY" = none) :
    setupPipeline env = { apiKey := none, embeddingsKey := none, llmKey := none } ∧
    (∀ payload, callService (setupPipeline env).embeddingsKey payload
        = Except.error "authentication failed: missing api key") ∧
    (∀ payload, callService (setupPipeline env).llmKey payload
        = Except.error "authentication failed: missing api key") := by
  refine ⟨?_, ?_, ?_⟩
  · simp [setupPipeline, h]
  · intro payload
    simp [setupPipeline, h, callService]
  · intro payload
    simp [setupPipeline, h, callService]

/-- Witness for C10 in an environment that holds no `OPENAI_API_KEY`. -/
theorem claim_C10_witness :
    getenv [("HOME", "/root")] "OPENAI_API_KEY" = none ∧
    setupPipeline [("HOME", "/root")]
        = { apiKey := none, embeddingsKey := none, llmKey := none } ∧
    callService (setupPipeline [("HOME", "/root")]).llmKey "prompt"
        = Except.error "authentication failed: missing api key" := by
  have h := claim_C10_missing_key_defers_failure [("HOME", "/root")] rfl
  exact ⟨rfl, h.1, h.2.2 "prompt"⟩

end RagPipeline
